import Mathlib

/-!
Shallow embedding of the packed-ternary batched matrix-multiply kernel
(`src/bitnetb158/triton_kernels/bitmat_kernel.py`): the Triton kernel
`_ternary_bmm_kernel` and its launch wrapper `batched_bitmat`.

Modelling conventions:
* Machine integers (program ids, offsets, shapes) are `ℕ`; the index
  arithmetic of the kernel is nonnegative throughout, and the one
  subtraction it performs (`K - k * BLOCK_SIZE_K` in the A-load mask and
  `num_pid_m - first_pid_m` in the group clamp) is nonnegative whenever it
  is consulted, so truncated `ℕ` subtraction agrees with the int32
  arithmetic of the source.
* Tensor memory is a total function from indices to values: operand A is
  `ℕ → ℕ → ℕ → ℤ` (batch, row, reduction index), the packed operand B is
  `ℕ → ℕ → ℕ` (row n, packed column) in its original (N, K / n_bits)
  layout — the wrapper transposes and broadcast-expands B, after which the
  kernel address `kp * stride_bk + n * stride_bn` is exactly the flat
  address of `B[n][kp]` in the original buffer.  The output buffer is a
  flat `ℕ → ℤ` addressed with the strides of the freshly allocated
  contiguous (Batch, M, N) tensor: `stride_cm = N`, `stride_cn = 1`,
  `stride_batch_c = M * N`.
* The fp32 accumulation and the final fp16 narrowing are modelled exactly
  over `ℤ`: every product is (int8 value) × (ternary value), so the
  mathematical content of the reduction is integer arithmetic.
-/

namespace BitNet

/-- Integer ceiling division, as `triton.cdiv` / `tl.cdiv` compute it. -/
def cdiv (a b : ℕ) : ℕ := (a + b - 1) / b

/-- Launch-time parameters of one kernel invocation: problem shape
(M, N, K), packing ratio `n_bits`, and the meta-parameters of the Triton
config (tile sizes and group size). -/
structure Cfg where
  M : ℕ
  N : ℕ
  K : ℕ
  n_bits : ℕ
  BLOCK_SIZE_M : ℕ
  BLOCK_SIZE_N : ℕ
  BLOCK_SIZE_K : ℕ
  GROUP_SIZE_M : ℕ
deriving DecidableEq, Repr

/-- Autotune configuration shipped with the kernel:
BLOCK_SIZE_M = 128, BLOCK_SIZE_N = 128, BLOCK_SIZE_K = 64, GROUP_SIZE_M = 8. -/
def autotunedCfg (M N K n_bits : ℕ) : Cfg :=
  ⟨M, N, K, n_bits, 128, 128, 64, 8⟩

/-! Grid-to-tile mapper (kernel lines 63–70). -/

/-- Number of tile rows: `num_pid_m = tl.cdiv(M, BLOCK_SIZE_M)`. -/
def num_pid_m (c : Cfg) : ℕ := cdiv c.M c.BLOCK_SIZE_M

/-- Number of tile columns: `num_pid_n = tl.cdiv(N, BLOCK_SIZE_N)`. -/
def num_pid_n (c : Cfg) : ℕ := cdiv c.N c.BLOCK_SIZE_N

/-- Programs per row group: `num_pid_in_group = GROUP_SIZE_M * num_pid_n`. -/
def num_pid_in_group (c : Cfg) : ℕ := c.GROUP_SIZE_M * num_pid_n c

/-- Row-group of a flat program id: `group_id = pid // num_pid_in_group`. -/
def group_id (c : Cfg) (pid : ℕ) : ℕ := pid / num_pid_in_group c

/-- First tile row of the group: `first_pid_m = group_id * GROUP_SIZE_M`. -/
def first_pid_m (c : Cfg) (pid : ℕ) : ℕ := group_id c pid * c.GROUP_SIZE_M

/-- Clamped group height:
`group_size_m = min(num_pid_m - first_pid_m, GROUP_SIZE_M)`. -/
def group_size_m (c : Cfg) (pid : ℕ) : ℕ :=
  min (num_pid_m c - first_pid_m c pid) c.GROUP_SIZE_M

/-- Tile row of a program: `pid_m = first_pid_m + (pid % group_size_m)`. -/
def pid_m (c : Cfg) (pid : ℕ) : ℕ :=
  first_pid_m c pid + pid % group_size_m c pid

/-- Tile column of a program:
`pid_n = (pid % num_pid_in_group) // group_size_m`. -/
def pid_n (c : Cfg) (pid : ℕ) : ℕ :=
  (pid % num_pid_in_group c) / group_size_m c pid

/-! Block offsets (kernel lines 79–96). -/

/-- Wrapped A-row offsets:
`offs_am = (pid_m * BLOCK_SIZE_M + tl.arange(0, BLOCK_SIZE_M)) % M`,
at lane `i`. -/
def offs_am (c : Cfg) (pid i : ℕ) : ℕ :=
  (pid_m c pid * c.BLOCK_SIZE_M + i) % c.M

/-- Wrapped B-column offsets:
`offs_bn = (pid_n * BLOCK_SIZE_N + tl.arange(0, BLOCK_SIZE_N)) % N`,
at lane `j`. -/
def offs_bn (c : Cfg) (pid j : ℕ) : ℕ :=
  (pid_n c pid * c.BLOCK_SIZE_N + j) % c.N

/-- Per-lane bit shift: `shifter = (offs_k % n_bits) * 2` at lane `k'`. -/
def shifter (c : Cfg) (k' : ℕ) : ℕ := (k' % c.n_bits) * 2

/-- Packed-row index read by the B-load in reduction chunk `t`, lane `k'`:
initially `offs_k // n_bits` (line 92), advanced by
`BLOCK_SIZE_K // n_bits` packed rows per chunk (line 125). -/
def bLoadRow (c : Cfg) (t k' : ℕ) : ℕ :=
  t * (c.BLOCK_SIZE_K / c.n_bits) + k' / c.n_bits

/-! Unpack-and-accumulate inner loop (kernel lines 103–130). -/

/-- Unpack step of lines 114–119: extract the 2-bit code
`(b >> shifter) & 0x3` and map code 2 to −1 (`tl.where(b == 0x2, -1, b)`),
as an integer of A's working type. -/
def decode (byte shift : ℕ) : ℤ :=
  let b := (byte >>> shift) &&& 0x3
  if b = 2 then -1 else (b : ℤ)

/-- Masked A-load of chunk `t` (line 107): lane `(i, k')` holds
`A[batch][offs_am i][t * BLOCK_SIZE_K + k']` when the K-mask
`offs_k < K - t * BLOCK_SIZE_K` holds, and the `other=0.0` value
otherwise. -/
def aLoad (c : Cfg) (A : ℕ → ℕ → ℕ → ℤ) (batch pid t i k' : ℕ) : ℤ :=
  if k' < c.K - t * c.BLOCK_SIZE_K then
    A batch (offs_am c pid i) (t * c.BLOCK_SIZE_K + k')
  else 0

/-- Unmasked B-load of chunk `t` followed by the unpack step
(lines 109–119): lane `(k', j)` holds the decoded value of packed byte
`B[offs_bn j][bLoadRow t k']` at shift `shifter k'`. -/
def bVal (c : Cfg) (B : ℕ → ℕ → ℕ) (pid t k' j : ℕ) : ℤ :=
  decode (B (offs_bn c pid j) (bLoadRow c t k')) (shifter c k')

/-- Accumulator after the reduction loop (lines 103–121): sum over all
`cdiv K BLOCK_SIZE_K` chunks of `tl.dot(a, b)` at tile position `(i, j)`,
modelled exactly over `ℤ`. -/
def acc (c : Cfg) (A : ℕ → ℕ → ℕ → ℤ) (B : ℕ → ℕ → ℕ)
    (batch pid i j : ℕ) : ℤ :=
  ∑ t ∈ Finset.range (cdiv c.K c.BLOCK_SIZE_K),
    ∑ k' ∈ Finset.range c.BLOCK_SIZE_K,
      aLoad c A batch pid t i k' * bVal c B pid t k' j

/-! Write-back with boundary masking (kernel lines 134–143). -/

/-- True (non-wrapped) output row of lane `i`:
`offs_cm = pid_m * BLOCK_SIZE_M + tl.arange(0, BLOCK_SIZE_M)`. -/
def offs_cm (c : Cfg) (pid i : ℕ) : ℕ := pid_m c pid * c.BLOCK_SIZE_M + i

/-- True (non-wrapped) output column of lane `j`:
`offs_cn = pid_n * BLOCK_SIZE_N + tl.arange(0, BLOCK_SIZE_N)`. -/
def offs_cn (c : Cfg) (pid j : ℕ) : ℕ := pid_n c pid * c.BLOCK_SIZE_N + j

/-- Flat address of logical output element (batch, m, n) under the strides
of the contiguous (Batch, M, N) output:
`stride_cm * m + stride_cn * n + batch * stride_batch_c`
with `stride_cm = N`, `stride_cn = 1`, `stride_batch_c = M * N`. -/
def cAddr (c : Cfg) (batch m n : ℕ) : ℕ :=
  batch * (c.M * c.N) + m * c.N + n

/-- Address set of the masked store (line 143): program `(pid, batch)`
writes `addr` iff some lane `(i, j)` of its tile has
`offs_cm i < M`, `offs_cn j < N` (the store mask of line 142) and `addr`
is that lane's target address. -/
def tileWrites (c : Cfg) (pid batch addr : ℕ) : Prop :=
  ∃ i, i < c.BLOCK_SIZE_M ∧ ∃ j, j < c.BLOCK_SIZE_N ∧
    offs_cm c pid i < c.M ∧ offs_cn c pid j < c.N ∧
    addr = cAddr c batch (offs_cm c pid i) (offs_cn c pid j)

instance (c : Cfg) (pid batch addr : ℕ) :
    Decidable (tileWrites c pid batch addr) := by
  unfold tileWrites; infer_instance

/-- Value stored at a written address: the accumulator at the lane whose
true row/column the address decodes to. -/
def writeVal (c : Cfg) (A : ℕ → ℕ → ℕ → ℤ) (B : ℕ → ℕ → ℕ)
    (pid batch addr : ℕ) : ℤ :=
  acc c A B batch pid
    (addr / c.N % c.M - pid_m c pid * c.BLOCK_SIZE_M)
    (addr % c.N - pid_n c pid * c.BLOCK_SIZE_N)

/-- Effect of one program's masked store on the output buffer: written
addresses take the program's tile value, all other addresses keep their
previous contents. -/
def storeTile (c : Cfg) (A : ℕ → ℕ → ℕ → ℤ) (B : ℕ → ℕ → ℕ)
    (pid batch : ℕ) (buf : ℕ → ℤ) : ℕ → ℤ :=
  fun addr =>
    if tileWrites c pid batch addr then writeVal c A B pid batch addr
    else buf addr

/-- Launch grid of `batched_bitmat` (lines 169–172): the 1D axis has
`cdiv M BLOCK_SIZE_M * cdiv N BLOCK_SIZE_N` programs, the second axis has
`Batch` programs. -/
def grid (c : Cfg) (Batch : ℕ) : List (ℕ × ℕ) :=
  (List.range (num_pid_m c * num_pid_n c)).flatMap fun pid =>
    (List.range Batch).map fun b => (pid, b)

/-- Result of the whole launch: every program of the grid performs its
masked store into the output buffer; the regions are disjoint (proved
below), so the fold order is immaterial. -/
def kernelRun (c : Cfg) (A : ℕ → ℕ → ℕ → ℤ) (B : ℕ → ℕ → ℕ)
    (Batch : ℕ) (C0 : ℕ → ℤ) : ℕ → ℤ :=
  (grid c Batch).foldl (fun buf p => storeTile c A B p.1 p.2 buf) C0

/-! Launch/validation layer (`batched_bitmat`, lines 146–197). -/

/-- Shape-and-placement metadata of a tensor argument, the part of the
torch tensor the wrapper's assertions inspect. -/
structure TensorMeta where
  shape : List ℕ
  contiguous : Bool
  device : ℕ
deriving DecidableEq, Repr

/-- Contract errors of the wrapper's asserts (lines 154–159), in source
order.  (In the source the two contiguity assertions carry each other's
message text; the error cases here are named by the operand actually
checked.) -/
inductive ContractError where
  | aNot3D
  | bNot2D
  | incompatibleDims
  | bNotContiguous
  | aNotContiguous
  | deviceMismatch
deriving DecidableEq, Repr

/-- Entry point `batched_bitmat(a, b, int_per_2_bits=4, activation="")`:
runs the six assertions in source order; only if all pass does it derive
(B, M, K) and N, allocate the output and launch the kernel on the
autotuned configuration.  The activation tag is threaded through to the
kernel's ACTIVATION parameter, which the kernel never consults (the
activation hook at lines 126–129 is commented out). -/
def batched_bitmat (a b : TensorMeta) (Adata : ℕ → ℕ → ℕ → ℤ)
    (Bdata : ℕ → ℕ → ℕ) (int_per_2_bits : ℕ) (activation : ℕ)
    (C0 : ℕ → ℤ) : Except ContractError (ℕ → ℤ) :=
  if a.shape.length ≠ 3 then .error .aNot3D
  else if b.shape.length ≠ 2 then .error .bNot2D
  else if b.shape.getLastD 0 * int_per_2_bits ≠ a.shape.getLastD 0 then
    .error .incompatibleDims
  else if ¬ b.contiguous then .error .bNotContiguous
  else if ¬ a.contiguous then .error .aNotContiguous
  else if b.device ≠ a.device then .error .deviceMismatch
  else
    let Batch := a.shape.headD 0
    let M := a.shape.getD 1 0
    let K := a.shape.getLastD 0
    let N := b.shape.headD 0
    let _ := activation
    .ok (kernelRun (autotunedCfg M N K int_per_2_bits) Adata Bdata Batch C0)

/-! Definitions written from the specification text, for the refinement
claims: the reference computation, the spec's grid-mapper formulas, and
the packing convention. -/

/-- Ternary value of the 2-bit code stored for logical reduction index
`kk` of row `n`: byte `kk / n_bits`, bit position `(kk % n_bits) * 2`,
decoded 0→0, 1→+1, 2→−1. -/
def unpackTernary (c : Cfg) (B : ℕ → ℕ → ℕ) (n kk : ℕ) : ℤ :=
  decode (B n (kk / c.n_bits)) ((kk % c.n_bits) * 2)

/-- Reference computation of the spec: fully unpack B into an explicit
ternary (N × K) matrix and take the standard dense batched matrix
product with A. -/
def referenceC (c : Cfg) (A : ℕ → ℕ → ℕ → ℤ) (B : ℕ → ℕ → ℕ)
    (batch m n : ℕ) : ℤ :=
  ∑ kk ∈ Finset.range c.K, A batch m kk * unpackTernary c B n kk

/-- Ceiling of `a / b` as the spec means it (true mathematical ceiling
for positive `b`). -/
def specCeil (a b : ℕ) : ℕ := if a % b = 0 then a / b else a / b + 1

/-- Grid-mapper row formula as the specification states it. -/
def spec_tileRow (c : Cfg) (pid : ℕ) : ℕ :=
  let numTileRows := specCeil c.M c.BLOCK_SIZE_M
  let numTileCols := specCeil c.N c.BLOCK_SIZE_N
  let groupId := pid / (c.GROUP_SIZE_M * numTileCols)
  let firstRowInGroup := groupId * c.GROUP_SIZE_M
  let groupSize := min (numTileRows - firstRowInGroup) c.GROUP_SIZE_M
  firstRowInGroup + pid % groupSize

/-- Grid-mapper column formula as the specification states it. -/
def spec_tileCol (c : Cfg) (pid : ℕ) : ℕ :=
  let numTileRows := specCeil c.M c.BLOCK_SIZE_M
  let numTileCols := specCeil c.N c.BLOCK_SIZE_N
  let groupId := pid / (c.GROUP_SIZE_M * numTileCols)
  let firstRowInGroup := groupId * c.GROUP_SIZE_M
  let groupSize := min (numTileRows - firstRowInGroup) c.GROUP_SIZE_M
  (pid % (c.GROUP_SIZE_M * numTileCols)) / groupSize

/-- Modelled from the spec: the repository contains no packing routine
under src/ (only the kernel that consumes packed weights), so the packing
convention is taken from the spec's words — each addressable unit of B
stores `n_bits` consecutive 2-bit codes of its row, code `r` of unit `kp`
(logical index `kp * n_bits + r`) at bit position `2 * r`. -/
def packByte (c : Cfg) (codes : ℕ → ℕ) (kp : ℕ) : ℕ :=
  ∑ r ∈ Finset.range c.n_bits, codes (kp * c.n_bits + r) * 4 ^ r

/-! Helper lemmas: ceiling division. -/

theorem cdiv_eq_pred_div_succ {a b : ℕ} (hb : 0 < b) (ha : 0 < a) :
    cdiv a b = (a - 1) / b + 1 := by
  unfold cdiv
  have h : a + b - 1 = (a - 1) + b := by omega
  rw [h, Nat.add_div_right _ hb]

theorem le_cdiv_mul (a b : ℕ) (hb : 0 < b) : a ≤ cdiv a b * b := by
  rcases Nat.eq_zero_or_pos a with ha | ha
  · simp [ha]
  · rw [cdiv_eq_pred_div_succ hb ha, Nat.add_mul, Nat.one_mul]
    have h1 := Nat.div_add_mod' (a - 1) b
    have h2 : (a - 1) % b < b := Nat.mod_lt _ hb
    omega

theorem cdiv_pos {a b : ℕ} (hb : 0 < b) (ha : 0 < a) : 0 < cdiv a b := by
  rw [cdiv_eq_pred_div_succ hb ha]; exact Nat.succ_pos _

theorem cdiv_of_dvd {a b : ℕ} (hb : 0 < b) (h : b ∣ a) : cdiv a b = a / b := by
  obtain ⟨q, rfl⟩ := h
  unfold cdiv
  have h1 : b * q + b - 1 = b * q + (b - 1) := by omega
  rw [h1, Nat.mul_add_div hb, Nat.mul_div_cancel_left _ hb,
    Nat.div_eq_of_lt (by omega), Nat.add_zero]

theorem cdiv_eq_specCeil {b : ℕ} (a : ℕ) (hb : 0 < b) :
    cdiv a b = specCeil a b := by
  rcases Nat.eq_zero_or_pos a with rfl | ha
  · simp [cdiv, specCeil, Nat.div_eq_of_lt (by omega : b - 1 < b)]
  · obtain ⟨n, rfl⟩ := Nat.exists_eq_add_of_le ha
    rw [Nat.add_comm 1 n, cdiv_eq_pred_div_succ hb (by omega), specCeil]
    rw [Nat.add_sub_cancel, Nat.succ_div n b]
    by_cases h : (n + 1) % b = 0
    · rw [if_pos (Nat.dvd_iff_mod_eq_zero.mpr h), if_pos h]
    · rw [if_neg fun hd => h (Nat.dvd_iff_mod_eq_zero.mp hd), if_neg h]

/-! Helper lemmas: the grid-to-tile mapper is a bijection from the launch
grid onto the set of tile coordinates. -/

theorem first_pid_m_lt {c : Cfg} (hPn : 0 < num_pid_n c) {pid : ℕ}
    (hpid : pid < num_pid_m c * num_pid_n c) :
    first_pid_m c pid < num_pid_m c := by
  have h1 : group_id c pid * num_pid_in_group c ≤ pid := Nat.div_mul_le_self ..
  have h2 : first_pid_m c pid * num_pid_n c ≤ pid := by
    calc first_pid_m c pid * num_pid_n c
        = group_id c pid * num_pid_in_group c := by
          unfold first_pid_m num_pid_in_group; ring
      _ ≤ pid := h1
  exact Nat.lt_of_mul_lt_mul_right (Nat.lt_of_le_of_lt h2 hpid)

theorem group_size_m_pos {c : Cfg} (hG : 0 < c.GROUP_SIZE_M)
    (hPn : 0 < num_pid_n c) {pid : ℕ}
    (hpid : pid < num_pid_m c * num_pid_n c) :
    0 < group_size_m c pid := by
  have h1 := first_pid_m_lt hPn hpid
  unfold group_size_m
  omega

theorem pid_m_lt {c : Cfg} (hG : 0 < c.GROUP_SIZE_M) (hPn : 0 < num_pid_n c)
    {pid : ℕ} (hpid : pid < num_pid_m c * num_pid_n c) :
    pid_m c pid < num_pid_m c := by
  have h1 : pid % group_size_m c pid < group_size_m c pid :=
    Nat.mod_lt _ (group_size_m_pos hG hPn hpid)
  have h2 : group_size_m c pid ≤ num_pid_m c - first_pid_m c pid :=
    min_le_left ..
  have h3 := first_pid_m_lt hPn hpid
  unfold pid_m
  omega

theorem pid_n_lt {c : Cfg} (hG : 0 < c.GROUP_SIZE_M) (hPn : 0 < num_pid_n c)
    {pid : ℕ} (hpid : pid < num_pid_m c * num_pid_n c) :
    pid_n c pid < num_pid_n c := by
  have hgsm := group_size_m_pos hG hPn hpid
  have hkey : pid % num_pid_in_group c < num_pid_n c * group_size_m c pid := by
    rcases le_or_lt c.GROUP_SIZE_M (num_pid_m c - first_pid_m c pid) with h | h
    · have hg : group_size_m c pid = c.GROUP_SIZE_M := min_eq_right h
      have hnpg : 0 < num_pid_in_group c := by
        unfold num_pid_in_group; positivity
      have := Nat.mod_lt pid hnpg
      have heq : num_pid_n c * group_size_m c pid = num_pid_in_group c := by
        rw [hg]; unfold num_pid_in_group; ring
      omega
    · have hg : group_size_m c pid = num_pid_m c - first_pid_m c pid :=
        min_eq_left (Nat.le_of_lt h)
      have hfl := first_pid_m_lt hPn hpid
      have hdm : num_pid_in_group c * group_id c pid
          + pid % num_pid_in_group c = pid := by
        unfold group_id; exact Nat.div_add_mod ..
      have hsub : num_pid_n c * group_size_m c pid
          = num_pid_n c * num_pid_m c - num_pid_n c * first_pid_m c pid := by
        rw [hg, Nat.mul_sub]
      have hmul1 : num_pid_in_group c * group_id c pid
          = num_pid_n c * first_pid_m c pid := by
        unfold num_pid_in_group first_pid_m; ring
      have hmul2 : num_pid_n c * first_pid_m c pid
          ≤ num_pid_n c * num_pid_m c :=
        Nat.mul_le_mul_left _ (Nat.le_of_lt hfl)
      have hpid2 : pid < num_pid_n c * num_pid_m c := by
        rw [Nat.mul_comm]; exact hpid
      omega
  unfold pid_n
  rw [Nat.div_lt_iff_lt_mul hgsm]
  exact hkey

theorem pid_m_decomp {c : Cfg} (hG : 0 < c.GROUP_SIZE_M)
    (hPn : 0 < num_pid_n c) {pid : ℕ}
    (hpid : pid < num_pid_m c * num_pid_n c) :
    pid_m c pid / c.GROUP_SIZE_M = group_id c pid
      ∧ pid_m c pid % c.GROUP_SIZE_M = pid % group_size_m c pid := by
  have h1 : pid % group_size_m c pid < c.GROUP_SIZE_M :=
    Nat.lt_of_lt_of_le (Nat.mod_lt _ (group_size_m_pos hG hPn hpid))
      (min_le_right ..)
  have h2 : pid_m c pid
      = c.GROUP_SIZE_M * group_id c pid + pid % group_size_m c pid := by
    unfold pid_m first_pid_m; ring
  constructor
  · rw [h2, Nat.mul_add_div hG, Nat.div_eq_of_lt h1, Nat.add_zero]
  · rw [h2, Nat.mul_add_mod, Nat.mod_eq_of_lt h1]

theorem mapper_inj {c : Cfg} (hG : 0 < c.GROUP_SIZE_M) (hPn : 0 < num_pid_n c)
    {pid pid' : ℕ} (hpid : pid < num_pid_m c * num_pid_n c)
    (hpid' : pid' < num_pid_m c * num_pid_n c)
    (hm : pid_m c pid = pid_m c pid') (hn : pid_n c pid = pid_n c pid') :
    pid = pid' := by
  obtain ⟨hdiv, hmod⟩ := pid_m_decomp hG hPn hpid
  obtain ⟨hdiv', hmod'⟩ := pid_m_decomp hG hPn hpid'
  have hgid : group_id c pid = group_id c pid' := by rw [← hdiv, ← hdiv', hm]
  have hgsm : group_size_m c pid = group_size_m c pid' := by
    unfold group_size_m first_pid_m; rw [hgid]
  have hr : pid % group_size_m c pid = pid' % group_size_m c pid := by
    rw [← hmod, hm, hmod', hgsm]
  have hrem : pid % num_pid_in_group c % group_size_m c pid
      = pid' % num_pid_in_group c % group_size_m c pid := by
    have e1 : num_pid_in_group c * group_id c pid + pid % num_pid_in_group c
        = pid := by unfold group_id; exact Nat.div_add_mod ..
    have e2 : num_pid_in_group c * group_id c pid + pid' % num_pid_in_group c
        = pid' := by
      rw [hgid]; unfold group_id; exact Nat.div_add_mod ..
    have h3 : (num_pid_in_group c * group_id c pid
          + pid % num_pid_in_group c) % group_size_m c pid
        = (num_pid_in_group c * group_id c pid
          + pid' % num_pid_in_group c) % group_size_m c pid := by
      rw [e1, e2]; rw [hgsm] at hr ⊢; exact hr
    exact Nat.ModEq.add_left_cancel' _ h3
  have hquot : pid % num_pid_in_group c / group_size_m c pid
      = pid' % num_pid_in_group c / group_size_m c pid := by
    have := hn
    unfold pid_n at this
    rw [hgsm] at this ⊢
    exact this
  have hdm1 := Nat.div_add_mod (pid % num_pid_in_group c) (group_size_m c pid)
  have hdm2 := Nat.div_add_mod (pid' % num_pid_in_group c) (group_size_m c pid)
  rw [← hquot] at hdm2
  have hreq : pid % num_pid_in_group c = pid' % num_pid_in_group c := by
    omega
  have e1 : num_pid_in_group c * group_id c pid + pid % num_pid_in_group c
      = pid := by unfold group_id; exact Nat.div_add_mod ..
  have e2 : num_pid_in_group c * group_id c pid + pid' % num_pid_in_group c
      = pid' := by
    rw [hgid]; unfold group_id; exact Nat.div_add_mod ..
  omega

theorem mapper_surj {c : Cfg} (hG : 0 < c.GROUP_SIZE_M)
    (hPm : 0 < num_pid_m c) (hPn : 0 < num_pid_n c) {pm pn : ℕ}
    (hpm : pm < num_pid_m c) (hpn : pn < num_pid_n c) :
    ∃ pid, pid < num_pid_m c * num_pid_n c
      ∧ pid_m c pid = pm ∧ pid_n c pid = pn := by
  classical
  set S : Finset ℕ := Finset.range (num_pid_m c * num_pid_n c) with hS
  set T : Finset (ℕ × ℕ) :=
    Finset.range (num_pid_m c) ×ˢ Finset.range (num_pid_n c) with hT
  set F : ℕ → ℕ × ℕ := fun pid => (pid_m c pid, pid_n c pid) with hF
  have hsub : S.image F ⊆ T := by
    intro q hq
    rw [Finset.mem_image] at hq
    obtain ⟨pid, hpid, rfl⟩ := hq
    rw [hS, Finset.mem_range] at hpid
    rw [hT, Finset.mem_product]
    exact ⟨Finset.mem_range.mpr (pid_m_lt hG hPn hpid),
      Finset.mem_range.mpr (pid_n_lt hG hPn hpid)⟩
  have hinj : Set.InjOn F S := by
    intro x hx y hy hxy
    rw [hS, Finset.coe_range, Set.mem_Iio] at hx hy
    have h1 : pid_m c x = pid_m c y := congrArg Prod.fst hxy
    have h2 : pid_n c x = pid_n c y := congrArg Prod.snd hxy
    exact mapper_inj hG hPn hx hy h1 h2
  have hcard : T.card ≤ (S.image F).card := by
    rw [Finset.card_image_of_injOn hinj, hS, Finset.card_range, hT,
      Finset.card_product, Finset.card_range, Finset.card_range]
  have heq : S.image F = T := Finset.eq_of_subset_of_card_le hsub hcard
  have hmem : (pm, pn) ∈ S.image F := by
    rw [heq, hT, Finset.mem_product]
    exact ⟨Finset.mem_range.mpr hpm, Finset.mem_range.mpr hpn⟩
  rw [Finset.mem_image] at hmem
  obtain ⟨pid, hpid, hfp⟩ := hmem
  rw [hS, Finset.mem_range] at hpid
  refine ⟨pid, hpid, ?_, ?_⟩
  · exact congrArg Prod.fst hfp
  · exact congrArg Prod.snd hfp

/-! Helper lemmas: flat output addressing. -/

theorem cAddr_decomp (c : Cfg) (b m n : ℕ) :
    cAddr c b m n = c.N * (b * c.M + m) + n := by
  unfold cAddr; ring

theorem cAddr_mod_N {c : Cfg} (b m : ℕ) {n : ℕ} (hn : n < c.N) :
    cAddr c b m n % c.N = n := by
  rw [cAddr_decomp, Nat.mul_add_mod, Nat.mod_eq_of_lt hn]

theorem cAddr_div_N {c : Cfg} (hN : 0 < c.N) (b m : ℕ) {n : ℕ}
    (hn : n < c.N) : cAddr c b m n / c.N = b * c.M + m := by
  rw [cAddr_decomp, Nat.mul_add_div hN, Nat.div_eq_of_lt hn, Nat.add_zero]

theorem cAddr_div_mod_M {c : Cfg} (hN : 0 < c.N) (b : ℕ) {m n : ℕ}
    (hm : m < c.M) (hn : n < c.N) :
    cAddr c b m n / c.N % c.M = m := by
  rw [cAddr_div_N hN b m hn, Nat.mul_comm, Nat.mul_add_mod, Nat.mod_eq_of_lt hm]

theorem cAddr_inj {c : Cfg} (hM : 0 < c.M) (hN : 0 < c.N)
    {b m n b' m' n' : ℕ} (hm : m < c.M) (hn : n < c.N) (hm' : m' < c.M)
    (hn' : n' < c.N) (h : cAddr c b m n = cAddr c b' m' n') :
    b = b' ∧ m = m' ∧ n = n' := by
  have e1 : n = n' := by
    rw [← cAddr_mod_N b m hn, h, cAddr_mod_N b' m' hn']
  have e2 : b * c.M + m = b' * c.M + m' := by
    rw [← cAddr_div_N hN b m hn, h, cAddr_div_N hN b' m' hn']
  have e3 : m = m' := by
    have f1 : (b * c.M + m) % c.M = m := by
      rw [Nat.mul_comm, Nat.mul_add_mod, Nat.mod_eq_of_lt hm]
    have f2 : (b' * c.M + m') % c.M = m' := by
      rw [Nat.mul_comm, Nat.mul_add_mod, Nat.mod_eq_of_lt hm']
    rw [← f1, e2, f2]
  refine ⟨?_, e3, e1⟩
  have := e2
  rw [e3] at this
  have hb := Nat.add_right_cancel this
  exact Nat.eq_of_mul_eq_mul_right hM hb

theorem div_block_of_tile {BM pm i m : ℕ} (hBM : 0 < BM) (hi : i < BM)
    (h : pm * BM + i = m) : m / BM = pm ∧ m % BM = i := by
  subst h
  constructor
  · rw [Nat.mul_comm, Nat.mul_add_div hBM, Nat.div_eq_of_lt hi, Nat.add_zero]
  · rw [Nat.mul_comm, Nat.mul_add_mod, Nat.mod_eq_of_lt hi]

theorem tileWrites_cAddr_iff {c : Cfg} (hM : 0 < c.M) (hN : 0 < c.N)
    (hBM : 0 < c.BLOCK_SIZE_M) (hBN : 0 < c.BLOCK_SIZE_N)
    (pid batch b : ℕ) {m n : ℕ} (hm : m < c.M) (hn : n < c.N) :
    tileWrites c pid batch (cAddr c b m n) ↔
      batch = b ∧ pid_m c pid = m / c.BLOCK_SIZE_M
        ∧ pid_n c pid = n / c.BLOCK_SIZE_N := by
  constructor
  · rintro ⟨i, hi, j, hj, hrow, hcol, haddr⟩
    obtain ⟨hb, hmr, hnr⟩ := cAddr_inj hM hN hm hn hrow hcol haddr
    obtain ⟨hd1, _⟩ := div_block_of_tile hBM hi hmr.symm
    obtain ⟨hd2, _⟩ := div_block_of_tile hBN hj hnr.symm
    exact ⟨hb.symm, hd1.symm, hd2.symm⟩
  · rintro ⟨rfl, h1, h2⟩
    have e1 : offs_cm c pid (m % c.BLOCK_SIZE_M) = m := by
      unfold offs_cm; rw [h1, Nat.div_add_mod']
    have e2 : offs_cn c pid (n % c.BLOCK_SIZE_N) = n := by
      unfold offs_cn; rw [h2, Nat.div_add_mod']
    refine ⟨m % c.BLOCK_SIZE_M, Nat.mod_lt _ hBM,
      n % c.BLOCK_SIZE_N, Nat.mod_lt _ hBN, ?_, ?_, ?_⟩
    · rw [e1]; exact hm
    · rw [e2]; exact hn
    · rw [e1, e2]

/-! Helper lemmas: the launch fold. -/

theorem storeTile_apply (c : Cfg) (A : ℕ → ℕ → ℕ → ℤ) (B : ℕ → ℕ → ℕ)
    (pid batch : ℕ) (buf : ℕ → ℤ) (addr : ℕ) :
    storeTile c A B pid batch buf addr
      = if tileWrites c pid batch addr then writeVal c A B pid batch addr
        else buf addr := rfl

theorem foldl_no_writer {c : Cfg} {A : ℕ → ℕ → ℕ → ℤ} {B : ℕ → ℕ → ℕ}
    {addr : ℕ} (l : List (ℕ × ℕ)) (buf : ℕ → ℤ)
    (h : ∀ p ∈ l, ¬ tileWrites c p.1 p.2 addr) :
    (l.foldl (fun buf p => storeTile c A B p.1 p.2 buf) buf) addr
      = buf addr := by
  induction l generalizing buf with
  | nil => rfl
  | cons hd tl ih =>
    rw [List.foldl_cons,
      ih _ fun p hp => h p (List.mem_cons_of_mem hd hp),
      storeTile_apply, if_neg (h hd (List.mem_cons_self hd tl))]

theorem foldl_unique_writer {c : Cfg} {A : ℕ → ℕ → ℕ → ℤ} {B : ℕ → ℕ → ℕ}
    {addr : ℕ} {p₀ : ℕ × ℕ} (l : List (ℕ × ℕ)) (buf : ℕ → ℤ)
    (hmem : p₀ ∈ l) (hw : tileWrites c p₀.1 p₀.2 addr)
    (huniq : ∀ p ∈ l, tileWrites c p.1 p.2 addr → p = p₀) :
    (l.foldl (fun buf p => storeTile c A B p.1 p.2 buf) buf) addr
      = writeVal c A B p₀.1 p₀.2 addr := by
  induction l generalizing buf with
  | nil => cases hmem
  | cons hd tl ih =>
    rw [List.foldl_cons]
    by_cases hp : p₀ ∈ tl
    · exact ih _ hp fun p hq hwq => huniq p (List.mem_cons_of_mem hd hq) hwq
    · have hhd : hd = p₀ := by
        rcases List.mem_cons.mp hmem with h | h
        · exact h.symm
        · exact absurd h hp
      subst hhd
      rw [foldl_no_writer tl _ fun p hq hwq =>
        hp ((huniq p (List.mem_cons_of_mem hd hq) hwq) ▸ hq)]
      rw [storeTile_apply, if_pos hw]

theorem mem_grid {c : Cfg} {Batch : ℕ} {p : ℕ × ℕ} :
    p ∈ grid c Batch ↔ p.1 < num_pid_m c * num_pid_n c ∧ p.2 < Batch := by
  unfold grid
  simp only [List.mem_flatMap, List.mem_map, List.mem_range]
  constructor
  · rintro ⟨pid, hpid, b, hb, rfl⟩
    exact ⟨hpid, hb⟩
  · rintro ⟨h1, h2⟩
    exact ⟨p.1, h1, p.2, h2, rfl⟩

/-! Helper lemmas: collapsing the chunked, masked reduction. -/

theorem sum_chunks (f : ℕ → ℤ) (T B : ℕ) :
    (∑ t ∈ Finset.range T, ∑ k ∈ Finset.range B, f (t * B + k))
      = ∑ kk ∈ Finset.range (T * B), f kk := by
  induction T with
  | zero => simp
  | succ T ih =>
    rw [Finset.sum_range_succ, ih, Nat.succ_mul, Finset.sum_range_add]

theorem bLoadRow_flat {c : Cfg} (hnb : 0 < c.n_bits)
    (hdvd : c.n_bits ∣ c.BLOCK_SIZE_K) (t k' : ℕ) :
    bLoadRow c t k' = (t * c.BLOCK_SIZE_K + k') / c.n_bits := by
  unfold bLoadRow
  have h : t * c.BLOCK_SIZE_K + k'
      = k' + t * (c.BLOCK_SIZE_K / c.n_bits) * c.n_bits := by
    rw [Nat.mul_assoc, Nat.div_mul_cancel hdvd]; ring
  rw [h, Nat.add_mul_div_right _ _ hnb, Nat.add_comm]

theorem kmod_flat {c : Cfg} (hdvd : c.n_bits ∣ c.BLOCK_SIZE_K) (t k' : ℕ) :
    (t * c.BLOCK_SIZE_K + k') % c.n_bits = k' % c.n_bits := by
  obtain ⟨q, hq⟩ := hdvd
  rw [hq]
  have h : t * (c.n_bits * q) + k' = k' + (t * q) * c.n_bits := by ring
  rw [h, Nat.add_mul_mod_self_right]

theorem acc_eq_ref {c : Cfg} (hnb : 0 < c.n_bits)
    (hdvd : c.n_bits ∣ c.BLOCK_SIZE_K) (hBK : 0 < c.BLOCK_SIZE_K)
    (A : ℕ → ℕ → ℕ → ℤ) (B : ℕ → ℕ → ℕ) (batch pid i j : ℕ) :
    acc c A B batch pid i j
      = referenceC c A B batch (offs_am c pid i) (offs_bn c pid j) := by
  unfold acc
  have hstep : ∀ t ∈ Finset.range (cdiv c.K c.BLOCK_SIZE_K),
      ∀ k' ∈ Finset.range c.BLOCK_SIZE_K,
      aLoad c A batch pid t i k' * bVal c B pid t k' j
        = (if t * c.BLOCK_SIZE_K + k' < c.K then
            A batch (offs_am c pid i) (t * c.BLOCK_SIZE_K + k') else 0)
          * unpackTernary c B (offs_bn c pid j) (t * c.BLOCK_SIZE_K + k') := by
    intro t _ k' _
    have h1 : aLoad c A batch pid t i k'
        = if t * c.BLOCK_SIZE_K + k' < c.K then
            A batch (offs_am c pid i) (t * c.BLOCK_SIZE_K + k') else 0 := by
      unfold aLoad
      exact if_congr (by omega) rfl rfl
    have h2 : bVal c B pid t k' j
        = unpackTernary c B (offs_bn c pid j) (t * c.BLOCK_SIZE_K + k') := by
      unfold bVal unpackTernary shifter
      rw [bLoadRow_flat hnb hdvd, kmod_flat hdvd]
    rw [h1, h2]
  rw [Finset.sum_congr rfl fun t ht =>
    Finset.sum_congr rfl fun k' hk => hstep t ht k' hk]
  rw [sum_chunks
    (fun kk => (if kk < c.K then A batch (offs_am c pid i) kk else 0)
      * unpackTernary c B (offs_bn c pid j) kk)
    (cdiv c.K c.BLOCK_SIZE_K) c.BLOCK_SIZE_K]
  unfold referenceC
  rw [← Finset.sum_subset
    (Finset.range_subset.mpr (le_cdiv_mul c.K c.BLOCK_SIZE_K hBK))]
  · exact Finset.sum_congr rfl fun kk hkk =>
      congrArg (· * _) (if_pos (Finset.mem_range.mp hkk))
  · intro kk _ hkk
    rw [if_neg (by simpa using hkk), zero_mul]

/-! Helper lemmas: base-4 digit extraction for the packing round-trip. -/

theorem digits_sum_lt (d : ℕ → ℕ) (hd : ∀ r, d r < 4) (s : ℕ) :
    (∑ r ∈ Finset.range s, d r * 4 ^ r) < 4 ^ s := by
  induction s with
  | zero => simp
  | succ s ih =>
    rw [Finset.sum_range_succ, pow_succ]
    have h1 : d s * 4 ^ s ≤ 3 * 4 ^ s :=
      Nat.mul_le_mul_right _ (by have := hd s; omega)
    omega

theorem digit_extract (d : ℕ → ℕ) (hd : ∀ r, d r < 4) {n s : ℕ}
    (hs : s < n) :
    (∑ r ∈ Finset.range n, d r * 4 ^ r) / 4 ^ s % 4 = d s := by
  obtain ⟨m, rfl⟩ : ∃ m, n = s + (m + 1) :=
    ⟨n - s - 1, by omega⟩
  rw [Finset.sum_range_add]
  have e2 : (∑ u ∈ Finset.range (m + 1), d (s + u) * 4 ^ (s + u))
      = 4 ^ s * ∑ u ∈ Finset.range (m + 1), d (s + u) * 4 ^ u := by
    rw [Finset.mul_sum]
    exact Finset.sum_congr rfl fun u _ => by rw [pow_add]; ring
  have e3 : (∑ u ∈ Finset.range (m + 1), d (s + u) * 4 ^ u)
      = d s + 4 * ∑ u ∈ Finset.range m, d (s + 1 + u) * 4 ^ u := by
    rw [Finset.sum_range_succ' (fun u => d (s + u) * 4 ^ u) m]
    have e4 : ∀ x, d (s + (x + 1)) * 4 ^ (x + 1)
        = 4 * (d (s + 1 + x) * 4 ^ x) := by
      intro x
      rw [pow_succ, show s + (x + 1) = s + 1 + x by omega]
      ring
    rw [Finset.sum_congr rfl fun x _ => e4 x, ← Finset.mul_sum]
    simp [Nat.add_comm]
  rw [e2, e3, Nat.add_mul_div_left _ _ (Nat.pos_pow_of_pos s (by omega)),
    Nat.div_eq_of_lt (digits_sum_lt d hd s), Nat.zero_add,
    Nat.add_mul_mod_self_left, Nat.mod_eq_of_lt (hd s)]

/-! Claim theorems. -/

/-- C2: for every packed byte and every code position within it, the
unpack step (shift right by the position's shift amount, mask to the low
2 bits, map code 2 to −1) yields exactly code 0→0, 1→1, 2→−1, and 3→3
when a 3 is present. -/
theorem unpack_code_value_map (byte pos : ℕ) :
    ((byte >>> (pos * 2)) &&& 0x3 = 0 → decode byte (pos * 2) = 0)
    ∧ ((byte >>> (pos * 2)) &&& 0x3 = 1 → decode byte (pos * 2) = 1)
    ∧ ((byte >>> (pos * 2)) &&& 0x3 = 2 → decode byte (pos * 2) = -1)
    ∧ ((byte >>> (pos * 2)) &&& 0x3 = 3 → decode byte (pos * 2) = 3) := by
  unfold decode
  refine ⟨fun h => ?_, fun h => ?_, fun h => ?_, fun h => ?_⟩ <;>
    simp only [h] <;> decide

/-- C2 witness: the map evaluated on concrete packed bytes — byte 0x6
holds code 2 at position 0 and code 1 at position 1; byte 0x30 holds
code 0 at position 0 and code 3 at position 2. -/
theorem unpack_code_value_map_witness :
    decode 0x6 (0 * 2) = -1 ∧ decode 0x6 (1 * 2) = 1
      ∧ decode 0x30 (0 * 2) = 0 ∧ decode 0x30 (2 * 2) = 3 :=
  ⟨(unpack_code_value_map 0x6 0).2.2.1 (by decide),
   (unpack_code_value_map 0x6 1).2.1 (by decide),
   (unpack_code_value_map 0x30 0).1 (by decide),
   (unpack_code_value_map 0x30 2).2.2.2 (by decide)⟩

/-- C6: for every flat program index, the kernel's grid-to-tile mapper
computes exactly the tile coordinates given by the spec's formulas
(groupId, firstRowInGroup, clamped groupSize, tileRow, tileCol with
numTileRows = ceil(M/tileM) and numTileCols = ceil(N/tileN)). -/
theorem grid_mapper_matches_spec_formulas (c : Cfg)
    (hBM : 0 < c.BLOCK_SIZE_M) (hBN : 0 < c.BLOCK_SIZE_N) (pid : ℕ) :
    pid_m c pid = spec_tileRow c pid ∧ pid_n c pid = spec_tileCol c pid := by
  simp only [pid_m, pid_n, first_pid_m, group_id, group_size_m,
    num_pid_in_group, num_pid_m, num_pid_n]
  rw [cdiv_eq_specCeil c.M hBM, cdiv_eq_specCeil c.N hBN]
  unfold spec_tileRow spec_tileCol
  exact ⟨rfl, rfl⟩

/-- C6 witness: the mapper agrees with the spec formulas on the shipped
configuration at a concrete shape and program index. -/
theorem grid_mapper_matches_spec_formulas_witness :
    0 < (autotunedCfg 300 300 64 4).BLOCK_SIZE_M
      ∧ 0 < (autotunedCfg 300 300 64 4).BLOCK_SIZE_N
      ∧ pid_m (autotunedCfg 300 300 64 4) 7
          = spec_tileRow (autotunedCfg 300 300 64 4) 7
      ∧ pid_n (autotunedCfg 300 300 64 4) 7
          = spec_tileCol (autotunedCfg 300 300 64 4) 7 :=
  ⟨by decide, by decide,
   (grid_mapper_matches_spec_formulas _ (by decide) (by decide) 7).1,
   (grid_mapper_matches_spec_formulas _ (by decide) (by decide) 7).2⟩

/-- C10: the activation tag is accepted but never affects the result:
two calls with identical operands and any two tag values return
identical outputs. -/
theorem activation_tag_inert (a b : TensorMeta) (Adata : ℕ → ℕ → ℕ → ℤ)
    (Bdata : ℕ → ℕ → ℕ) (int_per_2_bits : ℕ) (act₁ act₂ : ℕ)
    (C0 : ℕ → ℤ) :
    batched_bitmat a b Adata Bdata int_per_2_bits act₁ C0
      = batched_bitmat a b Adata Bdata int_per_2_bits act₂ C0 := rfl

/-- C7: for logical reduction index `kk = t * BLOCK_SIZE_K + k'`, the
kernel reads packed row `kk / n_bits` with shift `(kk % n_bits) * 2`;
the packed pointer advances by `BLOCK_SIZE_K / n_bits` rows per chunk;
and on a byte written by the packing convention this addressing recovers
exactly the `kk`-th stored 2-bit code. -/
theorem packed_addressing_roundtrip (c : Cfg) (hnb : 0 < c.n_bits)
    (hdvd : c.n_bits ∣ c.BLOCK_SIZE_K) (t k' : ℕ) (codes : ℕ → ℕ)
    (hcodes : ∀ kk, codes kk < 4) :
    bLoadRow c t k' = (t * c.BLOCK_SIZE_K + k') / c.n_bits
    ∧ shifter c k' = ((t * c.BLOCK_SIZE_K + k') % c.n_bits) * 2
    ∧ bLoadRow c (t + 1) k' = bLoadRow c t k' + c.BLOCK_SIZE_K / c.n_bits
    ∧ (packByte c codes ((t * c.BLOCK_SIZE_K + k') / c.n_bits)
          >>> shifter c k') &&& 0x3
        = codes (t * c.BLOCK_SIZE_K + k') := by
  refine ⟨bLoadRow_flat hnb hdvd t k', ?_, ?_, ?_⟩
  · unfold shifter; rw [kmod_flat hdvd]
  · unfold bLoadRow; ring
  · set kk := t * c.BLOCK_SIZE_K + k' with hkk
    have hsh : shifter c k' = kk % c.n_bits * 2 := by
      unfold shifter; rw [hkk, kmod_flat hdvd]
    have hpow : (2 : ℕ) ^ (kk % c.n_bits * 2) = 4 ^ (kk % c.n_bits) := by
      rw [Nat.mul_comm, Nat.pow_mul]
    rw [hsh, Nat.shiftRight_eq_div_pow,
      Nat.and_pow_two_sub_one_eq_mod _ 2, hpow]
    show packByte c codes (kk / c.n_bits) / 4 ^ (kk % c.n_bits) % 4
      = codes kk
    unfold packByte
    have hext : (∑ r ∈ Finset.range c.n_bits,
          codes (kk / c.n_bits * c.n_bits + r) * 4 ^ r)
          / 4 ^ (kk % c.n_bits) % 4
        = codes (kk / c.n_bits * c.n_bits + kk % c.n_bits) :=
      digit_extract (fun r => codes (kk / c.n_bits * c.n_bits + r))
        (fun r => hcodes _) (Nat.mod_lt kk hnb)
    rw [hext]
    exact congrArg codes (Nat.div_add_mod' kk c.n_bits)

/-- C7 witness: concrete round-trip at n_bits = 4, BLOCK_SIZE_K = 64,
chunk 1, lane 5, on a concrete code stream. -/
theorem packed_addressing_roundtrip_witness :
    0 < (autotunedCfg 8 8 128 4).n_bits
    ∧ (autotunedCfg 8 8 128 4).n_bits ∣ (autotunedCfg 8 8 128 4).BLOCK_SIZE_K
    ∧ (∀ kk, (fun kk => kk % 3) kk < 4)
    ∧ (packByte (autotunedCfg 8 8 128 4) (fun kk => kk % 3)
          ((1 * (autotunedCfg 8 8 128 4).BLOCK_SIZE_K + 5)
            / (autotunedCfg 8 8 128 4).n_bits)
          >>> shifter (autotunedCfg 8 8 128 4) 5) &&& 0x3
        = (fun kk => kk % 3) (1 * (autotunedCfg 8 8 128 4).BLOCK_SIZE_K + 5) :=
  ⟨by decide, by decide, fun kk => Nat.lt_of_lt_of_le (Nat.mod_lt kk (by decide)) (by decide),
   (packed_addressing_roundtrip (autotunedCfg 8 8 128 4) (by decide)
      (by decide) 1 5 (fun kk => kk % 3)
      fun kk => Nat.lt_of_lt_of_le (Nat.mod_lt kk (by decide)) (by decide)).2.2.2⟩

/-- C8: an A-block element whose logical K index is at or beyond the true
K extent is loaded as zero, and the accumulator does not depend on the
contents of A beyond the K extent. -/
theorem masked_aload_zero_and_inert (c : Cfg) (A A' : ℕ → ℕ → ℕ → ℤ)
    (B : ℕ → ℕ → ℕ) (batch pid t i k' j : ℕ)
    (hk : c.K ≤ t * c.BLOCK_SIZE_K + k')
    (hagree : ∀ b2 m kk, kk < c.K → A b2 m kk = A' b2 m kk) :
    aLoad c A batch pid t i k' = 0
      ∧ acc c A B batch pid i j = acc c A' B batch pid i j := by
  constructor
  · unfold aLoad
    rw [if_neg (by omega)]
  · unfold acc
    refine Finset.sum_congr rfl fun t2 _ => Finset.sum_congr rfl fun k2 _ => ?_
    unfold aLoad
    by_cases hmask : k2 < c.K - t2 * c.BLOCK_SIZE_K
    · rw [if_pos hmask, if_pos hmask,
        hagree batch (offs_am c pid i) (t2 * c.BLOCK_SIZE_K + k2) (by omega)]
    · rw [if_neg hmask, if_neg hmask]

/-- C8 witness: concrete evaluation with K = 2 inside a 4-wide chunk. -/
theorem masked_aload_zero_and_inert_witness :
    (autotunedCfg 1 1 2 1).K ≤ 0 * (autotunedCfg 1 1 2 1).BLOCK_SIZE_K + 3
    ∧ aLoad (autotunedCfg 1 1 2 1) (fun _ _ _ => 7) 0 0 0 0 3 = 0
    ∧ acc (autotunedCfg 1 1 2 1) (fun _ _ _ => 7) (fun _ _ => 1) 0 0 0 0
      = acc (autotunedCfg 1 1 2 1) (fun b2 m kk => if kk < 2 then 7 else 5)
          (fun _ _ => 1) 0 0 0 0 :=
  ⟨by decide,
   (masked_aload_zero_and_inert (autotunedCfg 1 1 2 1) (fun _ _ _ => 7)
      (fun b2 m kk => if kk < 2 then 7 else 5) (fun _ _ => 1) 0 0 0 0 3 0
      (by decide) fun b2 m kk hkk => by simp [show kk < 2 from hkk]).1,
   (masked_aload_zero_and_inert (autotunedCfg 1 1 2 1) (fun _ _ _ => 7)
      (fun b2 m kk => if kk < 2 then 7 else 5) (fun _ _ => 1) 0 0 0 0 3 0
      (by decide) fun b2 m kk hkk => by simp [show kk < 2 from hkk]).2⟩

/-- C3: every input violating a precondition (A not rank 3, B not rank 2,
packing-ratio mismatch, non-contiguous operand, device mismatch) makes
the entry point return a contract error, with no output produced — the
checks precede output allocation and the kernel launch. -/
theorem precondition_violation_rejected (a b : TensorMeta)
    (Adata : ℕ → ℕ → ℕ → ℤ) (Bdata : ℕ → ℕ → ℕ)
    (int_per_2_bits activation : ℕ) (C0 : ℕ → ℤ)
    (h : ¬ (a.shape.length = 3 ∧ b.shape.length = 2
      ∧ b.shape.getLastD 0 * int_per_2_bits = a.shape.getLastD 0
      ∧ b.contiguous = true ∧ a.contiguous = true ∧ b.device = a.device)) :
    ∃ e, batched_bitmat a b Adata Bdata int_per_2_bits activation C0
      = Except.error e := by
  unfold batched_bitmat
  rcases Decidable.em (a.shape.length = 3) with h1 | h1
  case inr => rw [if_pos h1]; exact ⟨_, rfl⟩
  rw [if_neg (not_not_intro h1)]
  rcases Decidable.em (b.shape.length = 2) with h2 | h2
  case inr => rw [if_pos h2]; exact ⟨_, rfl⟩
  rw [if_neg (not_not_intro h2)]
  rcases Decidable.em
    (b.shape.getLastD 0 * int_per_2_bits = a.shape.getLastD 0) with h3 | h3
  case inr => rw [if_pos h3]; exact ⟨_, rfl⟩
  rw [if_neg (not_not_intro h3)]
  rcases Decidable.em (b.contiguous = true) with h4 | h4
  case inr => rw [if_pos h4]; exact ⟨_, rfl⟩
  rw [if_neg (not_not_intro h4)]
  rcases Decidable.em (a.contiguous = true) with h5 | h5
  case inr => rw [if_pos h5]; exact ⟨_, rfl⟩
  rw [if_neg (not_not_intro h5)]
  rcases Decidable.em (b.device = a.device) with h6 | h6
  case inr => rw [if_pos h6]; exact ⟨_, rfl⟩
  exact absurd ⟨h1, h2, h3, h4, h5, h6⟩ h

/-- C3 witness: a rank-2 A is rejected with a contract error. -/
theorem precondition_violation_rejected_witness :
    (¬ ((TensorMeta.mk (2 :: 8 :: List.nil) true 0).shape.length = 3
      ∧ (TensorMeta.mk (4 :: 2 :: List.nil) true 0).shape.length = 2
      ∧ (TensorMeta.mk (4 :: 2 :: List.nil) true 0).shape.getLastD 0 * 4
          = (TensorMeta.mk (2 :: 8 :: List.nil) true 0).shape.getLastD 0
      ∧ (TensorMeta.mk (4 :: 2 :: List.nil) true 0).contiguous = true
      ∧ (TensorMeta.mk (2 :: 8 :: List.nil) true 0).contiguous = true
      ∧ (TensorMeta.mk (4 :: 2 :: List.nil) true 0).device
          = (TensorMeta.mk (2 :: 8 :: List.nil) true 0).device))
    ∧ ∃ e, batched_bitmat (TensorMeta.mk (2 :: 8 :: List.nil) true 0)
        (TensorMeta.mk (4 :: 2 :: List.nil) true 0)
        (fun _ _ _ => 0) (fun _ _ => 0) 4 0 (fun _ => 0)
        = Except.error e :=
  ⟨by decide,
   precondition_violation_rejected _ _ (fun _ _ _ => 0) (fun _ _ => 0) 4 0
     (fun _ => 0) (by decide)⟩

/-- C4: a program's store changes the output buffer only at addresses of
lanes whose true row is < M and true column is < N, offset into the
program's batch slice; every other address keeps its previous value. -/
theorem store_confined_to_masked_tile (c : Cfg) (A : ℕ → ℕ → ℕ → ℤ)
    (B : ℕ → ℕ → ℕ) (pid batch : ℕ) (buf : ℕ → ℤ) (addr : ℕ)
    (h : storeTile c A B pid batch buf addr ≠ buf addr) :
    ∃ i, i < c.BLOCK_SIZE_M ∧ ∃ j, j < c.BLOCK_SIZE_N
      ∧ offs_cm c pid i < c.M ∧ offs_cn c pid j < c.N
      ∧ addr = cAddr c batch (offs_cm c pid i) (offs_cn c pid j) := by
  by_cases hw : tileWrites c pid batch addr
  · exact hw
  · exact absurd (by rw [storeTile_apply, if_neg hw]) h

/-- C4 witness: with a 1×1 config the store changes address 0, and the
theorem locates the write inside the masked tile. -/
theorem store_confined_to_masked_tile_witness :
    (storeTile (Cfg.mk 1 1 1 1 1 1 1 1) (fun _ _ _ => 1) (fun _ _ => 1) 0 0
        (fun _ => 0) 0 ≠ (fun _ => (0 : ℤ)) 0)
    ∧ ∃ i, i < (Cfg.mk 1 1 1 1 1 1 1 1).BLOCK_SIZE_M
        ∧ ∃ j, j < (Cfg.mk 1 1 1 1 1 1 1 1).BLOCK_SIZE_N
        ∧ offs_cm (Cfg.mk 1 1 1 1 1 1 1 1) 0 i < 1
        ∧ offs_cn (Cfg.mk 1 1 1 1 1 1 1 1) 0 j < 1
        ∧ 0 = cAddr (Cfg.mk 1 1 1 1 1 1 1 1) 0
            (offs_cm (Cfg.mk 1 1 1 1 1 1 1 1) 0 i)
            (offs_cn (Cfg.mk 1 1 1 1 1 1 1 1) 0 j) := by
  have h : storeTile (Cfg.mk 1 1 1 1 1 1 1 1) (fun _ _ _ => 1)
      (fun _ _ => 1) 0 0 (fun _ => 0) 0 ≠ (fun _ => (0 : ℤ)) 0 := by decide
  exact ⟨h, store_confined_to_masked_tile (Cfg.mk 1 1 1 1 1 1 1 1)
    (fun _ _ _ => 1) (fun _ _ => 1) 0 0 (fun _ => 0) 0 h⟩

/-- C5 counterexample: on the shipped configuration (BLOCK_SIZE_K = 64)
with the valid input K = 4, n_bits = 4 (one packed column, n_bits
divides K), reduction chunk 0 is a real chunk (0 < cdiv K BLOCK_SIZE_K)
and lane 63 is a real lane, yet the unmasked B-load of line 109 reads
packed row 15, which is not below K / n_bits = 1: the load is out of
bounds whenever K is not a multiple of BLOCK_SIZE_K. -/
theorem b_load_out_of_bounds_cex :
    (autotunedCfg 16 16 4 4).n_bits ∣ (autotunedCfg 16 16 4 4).K
    ∧ 0 < cdiv (autotunedCfg 16 16 4 4).K (autotunedCfg 16 16 4 4).BLOCK_SIZE_K
    ∧ 63 < (autotunedCfg 16 16 4 4).BLOCK_SIZE_K
    ∧ bLoadRow (autotunedCfg 16 16 4 4) 0 63 = 15
    ∧ ¬ bLoadRow (autotunedCfg 16 16 4 4) 0 63
        < (autotunedCfg 16 16 4 4).K / (autotunedCfg 16 16 4 4).n_bits := by
  refine ⟨by decide, by decide, by decide, by decide, by decide⟩

/-- C5 amended: the packed-B column index is always in bounds (it wraps
modulo N), and the packed-row index is in bounds provided K is a
multiple of BLOCK_SIZE_K; without that extra hypothesis the final chunk
reads packed rows at or beyond K / n_bits (see the counterexample). -/
theorem b_load_in_bounds_when_blockK_divides_K (c : Cfg)
    (hnb : 0 < c.n_bits) (hdvd : c.n_bits ∣ c.BLOCK_SIZE_K)
    (hKdvd : c.BLOCK_SIZE_K ∣ c.K) (hN : 0 < c.N) (pid t k' j : ℕ)
    (ht : t < cdiv c.K c.BLOCK_SIZE_K) (hk : k' < c.BLOCK_SIZE_K) :
    bLoadRow c t k' < c.K / c.n_bits ∧ offs_bn c pid j < c.N := by
  have hBK : 0 < c.BLOCK_SIZE_K := by omega
  refine ⟨?_, Nat.mod_lt _ hN⟩
  obtain ⟨s, hs⟩ := hdvd
  obtain ⟨q, hq⟩ := hKdvd
  have hspos : 0 < s := by
    rcases Nat.eq_zero_or_pos s with rfl | h
    · rw [Nat.mul_zero] at hs; omega
    · exact h
  have hcd : cdiv c.K c.BLOCK_SIZE_K = q := by
    rw [cdiv_of_dvd hBK ⟨q, hq⟩, hq, Nat.mul_div_cancel_left _ hBK]
  have hqpos : 0 < q := by rw [hcd] at ht; omega
  have hBdiv : c.BLOCK_SIZE_K / c.n_bits = s := by
    rw [hs, Nat.mul_div_cancel_left _ hnb]
  have hKdiv : c.K / c.n_bits = q * s := by
    rw [hq, hs]
    have h1 : c.n_bits * s * q = (q * s) * c.n_bits := by ring
    rw [h1, Nat.mul_div_cancel _ hnb]
  have hkd : k' / c.n_bits < s := by
    rw [Nat.div_lt_iff_lt_mul hnb, Nat.mul_comm s c.n_bits]
    exact hs ▸ hk
  have ht2 : t < q := hcd ▸ ht
  unfold bLoadRow
  rw [hBdiv, hKdiv]
  have h2 : t * s ≤ (q - 1) * s := Nat.mul_le_mul_right s (by omega)
  have h3 : (q - 1) * s = q * s - s := by rw [Nat.sub_mul, Nat.one_mul]
  have h4 : s ≤ q * s := Nat.le_mul_of_pos_left s hqpos
  omega

/-- C5 amended witness: with K = 64 = BLOCK_SIZE_K on the shipped
configuration every lane of the single chunk reads in bounds. -/
theorem b_load_in_bounds_when_blockK_divides_K_witness :
    0 < (autotunedCfg 16 16 64 4).n_bits
    ∧ (autotunedCfg 16 16 64 4).n_bits
        ∣ (autotunedCfg 16 16 64 4).BLOCK_SIZE_K
    ∧ (autotunedCfg 16 16 64 4).BLOCK_SIZE_K ∣ (autotunedCfg 16 16 64 4).K
    ∧ 0 < (autotunedCfg 16 16 64 4).N
    ∧ 0 < cdiv (autotunedCfg 16 16 64 4).K
        (autotunedCfg 16 16 64 4).BLOCK_SIZE_K
    ∧ 63 < (autotunedCfg 16 16 64 4).BLOCK_SIZE_K
    ∧ bLoadRow (autotunedCfg 16 16 64 4) 0 63
        < (autotunedCfg 16 16 64 4).K / (autotunedCfg 16 16 64 4).n_bits
    ∧ offs_bn (autotunedCfg 16 16 64 4) 0 5 < (autotunedCfg 16 16 64 4).N :=
  ⟨by decide, by decide, by decide, by decide, by decide, by decide,
   (b_load_in_bounds_when_blockK_divides_K (autotunedCfg 16 16 64 4)
      (by decide) (by decide) (by decide) (by decide) 0 0 63 5
      (by decide) (by decide)).1,
   (b_load_in_bounds_when_blockK_divides_K (autotunedCfg 16 16 64 4)
      (by decide) (by decide) (by decide) (by decide) 0 0 63 5
      (by decide) (by decide)).2⟩

/-- C1: for every valid input, the logical output element (batch, m, n)
of the launched kernel equals the reference computation that first
unpacks B into an explicit ternary N×K matrix and performs a standard
dense batched matrix multiply — the reduction is modelled exactly over
ℤ, so agreement is exact, a fortiori within half-precision rounding
tolerance. -/
theorem kernel_output_matches_unpacked_reference (c : Cfg)
    (hM : 0 < c.M) (hN : 0 < c.N) (hBM : 0 < c.BLOCK_SIZE_M)
    (hBN : 0 < c.BLOCK_SIZE_N) (hBK : 0 < c.BLOCK_SIZE_K)
    (hG : 0 < c.GROUP_SIZE_M) (hnb : 0 < c.n_bits)
    (hdvd : c.n_bits ∣ c.BLOCK_SIZE_K)
    (A : ℕ → ℕ → ℕ → ℤ) (B : ℕ → ℕ → ℕ) (Batch : ℕ) (C0 : ℕ → ℤ)
    (batch m n : ℕ) (hb : batch < Batch) (hm : m < c.M) (hn : n < c.N) :
    kernelRun c A B Batch C0 (cAddr c batch m n)
      = referenceC c A B batch m n := by
  have hPm : 0 < num_pid_m c := cdiv_pos hBM hM
  have hPn : 0 < num_pid_n c := cdiv_pos hBN hN
  have hmd : m / c.BLOCK_SIZE_M < num_pid_m c := by
    rw [Nat.div_lt_iff_lt_mul hBM]
    exact Nat.lt_of_lt_of_le hm (le_cdiv_mul c.M c.BLOCK_SIZE_M hBM)
  have hnd : n / c.BLOCK_SIZE_N < num_pid_n c := by
    rw [Nat.div_lt_iff_lt_mul hBN]
    exact Nat.lt_of_lt_of_le hn (le_cdiv_mul c.N c.BLOCK_SIZE_N hBN)
  obtain ⟨pid₀, hpid₀, hpm₀, hpn₀⟩ := mapper_surj hG hPm hPn hmd hnd
  have hw : tileWrites c pid₀ batch (cAddr c batch m n) :=
    (tileWrites_cAddr_iff hM hN hBM hBN pid₀ batch batch hm hn).mpr
      ⟨rfl, hpm₀, hpn₀⟩
  have hmem : ((pid₀, batch) : ℕ × ℕ) ∈ grid c Batch :=
    mem_grid.mpr ⟨hpid₀, hb⟩
  have huniq : ∀ p ∈ grid c Batch,
      tileWrites c p.1 p.2 (cAddr c batch m n) → p = (pid₀, batch) := by
    intro p hp hwp
    obtain ⟨hp1, hp2⟩ := mem_grid.mp hp
    obtain ⟨hb2, hm2, hn2⟩ :=
      (tileWrites_cAddr_iff hM hN hBM hBN p.1 p.2 batch hm hn).mp hwp
    have e1 : p.1 = pid₀ :=
      mapper_inj hG hPn hp1 hpid₀ (by rw [hm2, hpm₀]) (by rw [hn2, hpn₀])
    have e2 : p.2 = batch := hb2
    exact Prod.ext_iff.mpr ⟨e1, e2⟩
  have hfold := foldl_unique_writer (c := c) (A := A) (B := B)
    (grid c Batch) C0 hmem hw huniq
  unfold kernelRun
  rw [hfold]
  unfold writeVal
  rw [cAddr_div_mod_M hN batch hm hn, cAddr_mod_N batch m hn, hpm₀, hpn₀]
  have ei : m - m / c.BLOCK_SIZE_M * c.BLOCK_SIZE_M = m % c.BLOCK_SIZE_M := by
    have := Nat.div_add_mod' m c.BLOCK_SIZE_M
    omega
  have ej : n - n / c.BLOCK_SIZE_N * c.BLOCK_SIZE_N = n % c.BLOCK_SIZE_N := by
    have := Nat.div_add_mod' n c.BLOCK_SIZE_N
    omega
  rw [ei, ej, acc_eq_ref hnb hdvd hBK]
  have eam : offs_am c pid₀ (m % c.BLOCK_SIZE_M) = m := by
    unfold offs_am
    rw [hpm₀, Nat.div_add_mod', Nat.mod_eq_of_lt hm]
  have ebn : offs_bn c pid₀ (n % c.BLOCK_SIZE_N) = n := by
    unfold offs_bn
    rw [hpn₀, Nat.div_add_mod', Nat.mod_eq_of_lt hn]
  rw [eam, ebn]

/-- C1 witness: on a concrete 3×2 output with K = 8, n_bits = 4 and
2×2×4 tiles the launched kernel's output at (batch, m, n) = (1, 2, 1)
equals the unpacked reference. -/
theorem kernel_output_matches_unpacked_reference_witness :
    (0 < (Cfg.mk 3 2 8 4 2 2 4 2).M ∧ 0 < (Cfg.mk 3 2 8 4 2 2 4 2).N
      ∧ 0 < (Cfg.mk 3 2 8 4 2 2 4 2).BLOCK_SIZE_M
      ∧ 0 < (Cfg.mk 3 2 8 4 2 2 4 2).BLOCK_SIZE_K
      ∧ (Cfg.mk 3 2 8 4 2 2 4 2).n_bits
          ∣ (Cfg.mk 3 2 8 4 2 2 4 2).BLOCK_SIZE_K
      ∧ 1 < 3 ∧ 2 < (Cfg.mk 3 2 8 4 2 2 4 2).M
      ∧ 1 < (Cfg.mk 3 2 8 4 2 2 4 2).N)
    ∧ kernelRun (Cfg.mk 3 2 8 4 2 2 4 2)
        (fun b2 m k => (b2 + 1 : ℤ) * (m + 2) * (k + 1) - 3)
        (fun n2 kp => (n2 * 37 + kp * 101 + 66) % 169) 3 (fun _ => 0)
        (cAddr (Cfg.mk 3 2 8 4 2 2 4 2) 1 2 1)
      = referenceC (Cfg.mk 3 2 8 4 2 2 4 2)
        (fun b2 m k => (b2 + 1 : ℤ) * (m + 2) * (k + 1) - 3)
        (fun n2 kp => (n2 * 37 + kp * 101 + 66) % 169) 1 2 1 :=
  ⟨⟨by decide, by decide, by decide, by decide, by decide, by decide,
    by decide, by decide⟩,
   kernel_output_matches_unpacked_reference (Cfg.mk 3 2 8 4 2 2 4 2)
     (by decide) (by decide) (by decide) (by decide) (by decide) (by decide)
     (by decide) (by decide)
     (fun b2 m k => (b2 + 1 : ℤ) * (m + 2) * (k + 1) - 3)
     (fun n2 kp => (n2 * 37 + kp * 101 + 66) % 169) 3 (fun _ => 0)
     1 2 1 (by decide) (by decide) (by decide)⟩

/-- C9: the write regions of distinct program instances are pairwise
disjoint; together they cover every logical output element (batch < B,
m < M, n < N); and every written address is such a logical element — so
the freshly allocated output buffer is fully defined after the launch. -/
theorem tile_writes_disjoint_and_cover (c : Cfg) (hM : 0 < c.M)
    (hN : 0 < c.N) (hBM : 0 < c.BLOCK_SIZE_M) (hBN : 0 < c.BLOCK_SIZE_N)
    (hG : 0 < c.GROUP_SIZE_M) (Batch : ℕ) :
    (∀ p ∈ grid c Batch, ∀ q ∈ grid c Batch, ∀ addr : ℕ,
        tileWrites c p.1 p.2 addr → tileWrites c q.1 q.2 addr → p = q)
    ∧ (∀ batch, batch < Batch → ∀ m, m < c.M → ∀ n, n < c.N →
        ∃ p ∈ grid c Batch, tileWrites c p.1 p.2 (cAddr c batch m n))
    ∧ (∀ p ∈ grid c Batch, ∀ addr : ℕ, tileWrites c p.1 p.2 addr →
        ∃ batch, batch < Batch ∧ ∃ m, m < c.M ∧ ∃ n, n < c.N
          ∧ addr = cAddr c batch m n) := by
  have hPm : 0 < num_pid_m c := cdiv_pos hBM hM
  have hPn : 0 < num_pid_n c := cdiv_pos hBN hN
  refine ⟨?_, ?_, ?_⟩
  · intro p hp q hq addr hwp hwq
    obtain ⟨hp1, hp2⟩ := mem_grid.mp hp
    obtain ⟨hq1, hq2⟩ := mem_grid.mp hq
    obtain ⟨i, hi, j, hj, hrow, hcol, haddr⟩ := hwp
    subst haddr
    obtain ⟨hbp, hmp, hnp⟩ := (tileWrites_cAddr_iff hM hN hBM hBN
      p.1 p.2 p.2 hrow hcol).mp ⟨i, hi, j, hj, hrow, hcol, rfl⟩
    obtain ⟨hbq, hmq, hnq⟩ := (tileWrites_cAddr_iff hM hN hBM hBN
      q.1 q.2 p.2 hrow hcol).mp hwq
    have e1 : q.1 = p.1 :=
      mapper_inj hG hPn hq1 hp1 (by rw [hmq, hmp]) (by rw [hnq, hnp])
    have e2 : q.2 = p.2 := hbq
    exact (Prod.ext_iff.mpr ⟨e1, e2⟩).symm
  · intro batch hb m hm n hn
    have hmd : m / c.BLOCK_SIZE_M < num_pid_m c := by
      rw [Nat.div_lt_iff_lt_mul hBM]
      exact Nat.lt_of_lt_of_le hm (le_cdiv_mul c.M c.BLOCK_SIZE_M hBM)
    have hnd : n / c.BLOCK_SIZE_N < num_pid_n c := by
      rw [Nat.div_lt_iff_lt_mul hBN]
      exact Nat.lt_of_lt_of_le hn (le_cdiv_mul c.N c.BLOCK_SIZE_N hBN)
    obtain ⟨pid₀, hpid₀, hpm₀, hpn₀⟩ := mapper_surj hG hPm hPn hmd hnd
    exact ⟨(pid₀, batch), mem_grid.mpr ⟨hpid₀, hb⟩,
      (tileWrites_cAddr_iff hM hN hBM hBN pid₀ batch batch hm hn).mpr
        ⟨rfl, hpm₀, hpn₀⟩⟩
  · intro p hp addr hwp
    obtain ⟨_, hp2⟩ := mem_grid.mp hp
    obtain ⟨i, hi, j, hj, hrow, hcol, haddr⟩ := hwp
    exact ⟨p.2, hp2, offs_cm c p.1 i, hrow, offs_cn c p.1 j, hcol, haddr⟩

/-- C9 witness: on a concrete 3×2 output with Batch = 2, the cover part
locates a program whose masked tile writes element (1, 2, 1). -/
theorem tile_writes_disjoint_and_cover_witness :
    (0 < (Cfg.mk 3 2 8 4 2 2 4 2).M ∧ 0 < (Cfg.mk 3 2 8 4 2 2 4 2).N
      ∧ 0 < (Cfg.mk 3 2 8 4 2 2 4 2).GROUP_SIZE_M ∧ 1 < 2
      ∧ 2 < (Cfg.mk 3 2 8 4 2 2 4 2).M ∧ 1 < (Cfg.mk 3 2 8 4 2 2 4 2).N)
    ∧ ∃ p ∈ grid (Cfg.mk 3 2 8 4 2 2 4 2) 2,
        tileWrites (Cfg.mk 3 2 8 4 2 2 4 2) p.1 p.2
          (cAddr (Cfg.mk 3 2 8 4 2 2 4 2) 1 2 1) :=
  ⟨⟨by decide, by decide, by decide, by decide, by decide, by decide⟩,
   (tile_writes_disjoint_and_cover (Cfg.mk 3 2 8 4 2 2 4 2)
      (by decide) (by decide) (by decide) (by decide) (by decide) 2).2.1
     1 (by decide) 2 (by decide) 1 (by decide)⟩

end BitNet
